import Mathlib

/-!
Verification of the OpenAgent mission runtime against its specification.

This file gives a shallow embedding, in Lean 4, of the parts of the
`openagent` Rust code base that the checked specification sentences talk
about:

* `src/workspace.rs` — MCP key sanitisation (`sanitize_key`, `unique_key`)
  and the key-assignment loop of `write_opencode_config`;
* `src/api/mission_runner.rs` — the per-mission state machine
  (`MissionRunner::start_next`, `cancel`, `poll_completion`), the history
  context builder (`build_history_context`), the Claude adapter's
  thinking-delta accumulator and cancellation path, the OpenCode adapter's
  cancellation path and its storage fallback
  (`load_latest_opencode_assistant_text`).

Modelling conventions:

* Rust `HashMap`/`HashSet` state is represented with association lists or
  plain lists; where the Rust code iterates a `HashMap` in unspecified
  order (the Claude thinking buffers) the embedding fixes the canonical
  ascending-index order and says so at the definition.
* `Uuid` values are represented by `Nat`, instants by a `Nat` clock value
  passed in explicitly, and `i64` by `Int`.
* The sanitizer's character classes (`char::is_alphanumeric`,
  `str::to_lowercase`) are embedded exactly on ASCII plus the specific
  non-ASCII characters the sanitizer theorems evaluate (`É`, `é`, `İ`,
  U+0307); `to_uppercase` (history formatting) is modelled at ASCII
  scope, and Rust byte lengths of strings are modelled as character
  counts, which coincide on ASCII data.
* Types that the mission runner uses but whose definitions live outside
  the extracted sources (`AgentResult`, `TerminalReason`, `AgentEvent`)
  are modelled from the specification, as flagged in their doc comments.
* Asynchronous loops are embedded as pure folds over an explicit input
  stream in which a trip of the cancellation token appears as one input
  item (the branch the `tokio::select!` takes).
-/

namespace OpenAgent

/-! ### `src/workspace.rs`: key sanitisation and uniquification -/

/-- The character filter of `sanitize_key`
(`c.is_alphanumeric() || *c == '_' || *c == '-'`).  Rust's
`char::is_alphanumeric` is Unicode-wide; the embedding is exact on ASCII
and on every non-ASCII character the theorems below evaluate: `É`
(U+00C9), `é` (U+00E9) and `İ` (U+0130) are alphanumeric in Unicode (all
letters), while the combining dot above U+0307 — produced by lowercasing
`İ` — is a combining mark and is not. -/
def keyChar (c : Char) : Bool :=
  c.isAlphanum || c == '_' || c == '-' || c == 'É' || c == 'é' || c == 'İ'

/-- The `-` → `_` replacement of `sanitize_key`. -/
def dashFix (c : Char) : Char := if c = '-' then '_' else c

/-- Per-character expansion of Rust's string-level `str::to_lowercase`
(a character may lowercase to several characters).  Exact on ASCII and on
the non-ASCII characters the theorems below evaluate: `É` lowercases to
`é`, and `İ` (U+0130) lowercases to `i` followed by the combining dot
above U+0307 (the Unicode special casing Rust implements); `é` and
U+0307 lowercase to themselves, as `Char.toLower` leaves non-ASCII
characters unchanged. -/
def rustLowerChar (c : Char) : List Char :=
  if c = 'İ' then ['i', Char.ofNat 0x307]
  else if c = 'É' then ['é']
  else [c.toLower]

/-- `sanitize_key` from `src/workspace.rs`: keep alphanumeric, `_` and `-`
characters, lowercase the collected string, then replace `-` with `_`.
The character classes are exact on ASCII plus the named non-ASCII
characters above (see `keyChar`, `rustLowerChar`); the theorems about
`sanitizeKey` stay within that domain. -/
def sanitizeKey (name : String) : String :=
  ⟨((name.data.filter keyChar).flatMap rustLowerChar).map dashFix⟩

/-- The candidate probing loop of `unique_key` from `src/workspace.rs`,
with explicit fuel (the Rust loop runs until it finds a candidate that is
not in `used`; `uniqueKeyLoop_not_mem` below shows the fuel used by
`uniqueKey` always suffices). -/
def uniqueKeyLoop (base : String) (used : List String) : Nat → Nat → String
  | 0, i => base ++ "_" ++ toString i
  | fuel + 1, i =>
    if used.contains (base ++ "_" ++ toString i) then
      uniqueKeyLoop base used fuel (i + 1)
    else base ++ "_" ++ toString i

/-- `unique_key` from `src/workspace.rs`: return `base` if unused,
otherwise the first fresh `base_i` for `i = 2, 3, …`; the chosen key is
recorded in `used`. -/
def uniqueKey (base : String) (used : List String) : String × List String :=
  if used.contains base then
    (uniqueKeyLoop base used (used.length + 1) 2,
      uniqueKeyLoop base used (used.length + 1) 2 :: used)
  else (base, base :: used)

/-- The key-assignment loop of `write_opencode_config` in
`src/workspace.rs`: each (enabled) MCP server name is sanitised and made
unique against the keys already taken. -/
def assignKeysFrom : List String → List String → List String
  | [], _ => []
  | n :: rest, used =>
    (uniqueKey (sanitizeKey n) used).1 ::
      assignKeysFrom rest (uniqueKey (sanitizeKey n) used).2

/-- Workspace keys assigned to a list of MCP server names. -/
def assignKeys (names : List String) : List String :=
  assignKeysFrom names []

/-! ### `src/api/mission_runner.rs`: data model -/

/-- `MissionRunState` from `src/api/mission_runner.rs`. -/
inductive MissionRunState where
  | Queued
  | Running
  | WaitingForTool
  | Finished
deriving DecidableEq, Repr

/-- `QueuedMessage` from `src/api/mission_runner.rs` (`Uuid` modelled as
`Nat`). -/
structure QueuedMessage where
  id : Nat
  content : String
  agent : Option String
deriving DecidableEq, Repr

/-- Modelled from the spec: the terminal-reason tag of an `AgentResult`
(`crate::agents::TerminalReason`, whose definition is outside the
extracted sources): `{Cancelled, LlmError, Completed}`. -/
inductive TerminalReason where
  | Cancelled
  | LlmError
  | Completed
deriving DecidableEq, Repr

/-- Modelled from the spec: `crate::agents::AgentResult` (definition
outside the extracted sources): success flag, free-form output string,
cost-cents counter and a terminal-reason tag. -/
structure AgentResult where
  success : Bool
  output : String
  costCents : Nat
  terminalReason : TerminalReason
deriving DecidableEq, Repr

/-- Modelled from the spec: `AgentResult::failure(output, cents)` builds a
result with `success = false`; error paths in the adapters pair it with
`with_terminal_reason`.  The default reason is `LlmError` per the spec's
error taxonomy. -/
def AgentResult.failure (output : String) (cents : Nat) : AgentResult :=
  { success := false, output := output, costCents := cents
    terminalReason := .LlmError }

/-- Modelled from the spec: `AgentResult::success(output, cents)`. -/
def AgentResult.succeed (output : String) (cents : Nat) : AgentResult :=
  { success := true, output := output, costCents := cents
    terminalReason := .Completed }

/-- `with_terminal_reason` on `AgentResult`. -/
def AgentResult.withTerminalReason (r : AgentResult) (t : TerminalReason) :
    AgentResult :=
  { r with terminalReason := t }

/-- Modelled from the spec: the `AgentEvent` union emitted through the
event sink (`api::control::AgentEvent`, definition outside the extracted
sources), restricted to the fields the mission-runner code sets.  JSON
argument/result payloads are modelled as strings. -/
inductive AgentEvent where
  | UserMessage (id : Nat) (content : String) (queued : Bool)
      (missionId : Option Nat)
  | Thinking (content : String) (done : Bool) (missionId : Option Nat)
  | ToolCall (toolCallId : String) (name : String) (args : String)
      (missionId : Option Nat)
  | ToolResult (toolCallId : String) (name : String) (result : String)
      (missionId : Option Nat)
  | Error (message : String) (missionId : Option Nat) (resumable : Bool)
deriving DecidableEq, Repr

/-- What `handle.await` yields for a finished turn task: either the
`(message id, user input, result)` triple, or a join error because the
task panicked. -/
inductive TaskOutcome where
  | ok (msgId : Nat) (input : String) (result : AgentResult)
  | panicked
deriving DecidableEq, Repr

/-- The join handle of a spawned turn task: whether the task has finished,
and the outcome `await` would give once it has. -/
structure TaskHandle where
  finished : Bool
  outcome : TaskOutcome
deriving DecidableEq, Repr

/-- The per-mission state of `MissionRunner` (the fields the checked
claims mention).  The cancellation token is modelled as
`Option Bool` — `some b` means a token is present and `b` records whether
it has been tripped; `last_activity` is a `Nat` clock value. -/
structure MissionRunner where
  missionId : Nat
  state : MissionRunState
  queue : List QueuedMessage
  history : List (String × String)
  cancelToken : Option Bool
  runningHandle : Option TaskHandle
  lastActivity : Nat
  explicitlyCompleted : Bool
deriving DecidableEq, Repr

/-- `MissionRunner::is_running`. -/
def MissionRunner.isRunning (r : MissionRunner) : Bool :=
  r.state = MissionRunState.Running ∨ r.state = MissionRunState.WaitingForTool

/-- `MissionRunner::cancel`: trip the token if one is present. -/
def MissionRunner.cancel (r : MissionRunner) : MissionRunner :=
  match r.cancelToken with
  | none => r
  | some _ => { r with cancelToken := some true }

/-- The observable effect of one `start_next` call: the updated runner,
the returned boolean, the events sent on the broadcast channel, and the
message popped for the spawned turn task (if any). -/
structure StartEffect where
  runner : MissionRunner
  started : Bool
  events : List AgentEvent
  spawnedFor : Option QueuedMessage
deriving DecidableEq, Repr

/-- `MissionRunner::start_next` from `src/api/mission_runner.rs`.  The
join handle produced by `tokio::spawn` is abstracted as the parameter
`spawned` (its eventual outcome is decided by the turn task).  Refuses
when already running or when the queue is empty; otherwise pops the head
message, moves to `Running`, installs a fresh (untripped) token, emits the
`UserMessage` event and records the spawned handle. -/
def MissionRunner.startNext (r : MissionRunner) (spawned : TaskHandle) :
    StartEffect :=
  if r.isRunning then ⟨r, false, [], none⟩
  else
    match r.queue with
    | [] => ⟨r, false, [], none⟩
    | msg :: rest =>
      ⟨{ r with
          queue := rest
          state := .Running
          cancelToken := some false
          runningHandle := some spawned },
        true,
        [AgentEvent.UserMessage msg.id msg.content false (some r.missionId)],
        some msg⟩

/-- The sentinel test of `poll_completion`: the turn output contains
`"Mission marked as"` or `"complete_mission"` as a substring. -/
def containsSentinel (out : String) : Bool :=
  decide ("Mission marked as".data <:+: out.data) ||
    decide ("complete_mission".data <:+: out.data)

/-- `MissionRunner::poll_completion` from `src/api/mission_runner.rs`,
with the current clock value `now` passed explicitly (`touch()` sets
`last_activity := now`).  Takes the handle; if the task is not finished
the handle is put back and nothing is returned.  If the task finished
normally: touch activity, set state to `Queued`, record explicit
completion when the sentinel is in the output, and append the user and
assistant entries to history.  If the task panicked: state becomes
`Finished`. -/
def MissionRunner.pollCompletion (r : MissionRunner) (now : Nat) :
    MissionRunner × Option (Nat × String × AgentResult) :=
  match r.runningHandle with
  | none => (r, none)
  | some h =>
    if h.finished then
      match h.outcome with
      | .ok msgId input result =>
        let r₁ := { r with
          runningHandle := none
          lastActivity := now
          state := .Queued }
        let r₂ :=
          if containsSentinel result.output then
            { r₁ with explicitlyCompleted := true }
          else r₁
        ({ r₂ with
            history := r₂.history ++
              [("user", input), ("assistant", result.output)] },
          some (msgId, input, result))
      | .panicked =>
        ({ r with runningHandle := none, state := .Finished }, none)
    else (r, none)

/-! ### `build_history_context` -/

/-- One history entry as formatted by `build_history_context`:
`format!("{}: {}\n\n", role.to_uppercase(), content)`
(uppercasing modelled at ASCII scope, character by character). -/
def entryString (role content : String) : String :=
  ⟨role.data.map Char.toUpper⟩ ++ ": " ++ content ++ "\n\n"

/-- The accumulation loop of `build_history_context`: walk the reversed
history, prepend each formatted entry, and stop as soon as an entry would
push the running total over `maxChars` — unless nothing has been taken
yet (`!result.is_empty()` in the source), so the first (most recent)
entry is always taken. -/
def buildHistoryGo (maxChars : Nat) :
    List (String × String) → String → Nat → String
  | [], acc, _ => acc
  | (role, content) :: rest, acc, total =>
    let entry := entryString role content
    if maxChars < total + entry.length ∧ acc ≠ "" then acc
    else buildHistoryGo maxChars rest (entry ++ acc) (total + entry.length)

/-- `build_history_context` from `src/api/mission_runner.rs` (string
lengths modelled as character counts). -/
def buildHistoryContext (history : List (String × String))
    (maxChars : Nat) : String :=
  buildHistoryGo maxChars history.reverse "" 0

/-! ### Claude adapter: thinking-delta accumulation (`run_claudecode_turn`)

The source keeps `thinking_buffer : HashMap<u32, String>` and emits the
concatenation of `thinking_buffer.values()`; `HashMap` iteration order is
unspecified, so the embedding keeps the buffers as an association list
sorted by ascending index (the canonical determinisation). -/

/-- Append `text` to the buffer at `index` (`thinking_buffer.entry(index)
.or_default().push_str(&text)`), keeping the list sorted by index. -/
def bufAppend : List (Nat × String) → Nat → String → List (Nat × String)
  | [], i, t => [(i, t)]
  | (j, s) :: rest, i, t =>
    if i = j then (j, s ++ t) :: rest
    else if i < j then (i, t) :: (j, s) :: rest
    else (j, s) :: bufAppend rest i t

/-- Total buffered length:
`thinking_buffer.values().map(|s| s.len()).sum()`. -/
def totalLen (bufs : List (Nat × String)) : Nat :=
  (bufs.map fun p => p.2.length).sum

/-- Concatenation of all buffers
(`thinking_buffer.values().cloned().collect::<Vec<_>>().join("")`),
in ascending index order per the modelling note above. -/
def concatBuffers (bufs : List (Nat × String)) : String :=
  String.join (bufs.map Prod.snd)

/-- The thinking-accumulator state: the per-index buffers and the length
watermark `last_thinking_len`. -/
structure ThinkState where
  buffers : List (Nat × String)
  lastLen : Nat
deriving DecidableEq, Repr

/-- The state before any delta has been seen. -/
def initThinkState : ThinkState := ⟨[], 0⟩

/-- Handling of one `thinking_delta` stream event with payload `text` at
block `index` (`run_claudecode_turn`): empty deltas are skipped; otherwise
the text is appended to the per-index buffer and a cumulative Thinking
content is emitted iff the total buffered length grew past the
watermark. -/
def applyThinkingDelta (st : ThinkState) (index : Nat) (text : String) :
    ThinkState × Option String :=
  if text = "" then (st, none)
  else
    let bufs := bufAppend st.buffers index text
    let total := totalLen bufs
    if st.lastLen < total then (⟨bufs, total⟩, some (concatBuffers bufs))
    else (⟨bufs, st.lastLen⟩, none)

/-- The contents of the Thinking events emitted for a sequence of
`thinking_delta` events `(index, text)`. -/
def runThinking (st : ThinkState) : List (Nat × String) → List String
  | [] => []
  | (i, t) :: rest =>
    match applyThinkingDelta st i t with
    | (st₁, some s) => s :: runThinking st₁ rest
    | (st₁, none) => runThinking st₁ rest

/-! ### Claude adapter: stream loop and cancellation
(`run_claudecode_turn`) -/

/-- A content block of an assistant/user message in the Claude stream
(`crate::backend::claudecode::client::ContentBlock`); JSON payloads are
modelled as strings. -/
inductive CContentBlock where
  | text (text : String)
  | toolUse (id name input : String)
  | thinking (thinking : String)
  | toolResult (toolUseId content : String) (isError : Bool)
  | other
deriving DecidableEq, Repr

/-- A parsed line of Claude CLI stdout (`ClaudeEvent` in the source).
`total_cost_usd` is modelled directly in integral cents (the claims
checked here do not concern cost arithmetic). -/
inductive CEvent where
  | system
  | streamBlockStart (index : Nat) (blockType : String)
      (id name : Option String)
  | streamBlockDelta (index : Nat) (deltaType : String)
      (text : Option String)
  | streamOther
  | assistant (content : List CContentBlock)
  | user (content : List CContentBlock)
      (toolUseResult : Option (String × String))
  | result (subtype : String) (isError : Bool) (result : Option String)
      (costCents : Option Nat)
deriving DecidableEq, Repr

/-- The mutable state of the Claude stream loop. -/
structure ClaudeState where
  pendingTools : List (String × String)
  blockTypes : List (Nat × String)
  think : ThinkState
  textBuffers : List (Nat × String)
  finalResult : String
  hadError : Bool
  costCents : Nat
deriving DecidableEq, Repr

/-- The loop state at entry of `run_claudecode_turn`'s read loop. -/
def initClaudeState : ClaudeState :=
  ⟨[], [], initThinkState, [], "", false, 0⟩

/-- Association-list insert for the `pending_tools` map. -/
def toolsInsert (m : List (String × String)) (id name : String) :
    List (String × String) :=
  (id, name) :: m.filter fun p => p.1 ≠ id

/-- Association-list lookup with the `"unknown"` default used by the
source. -/
def toolsLookup (m : List (String × String)) (id : String) : String :=
  match m.find? fun p => p.1 = id with
  | some p => p.2
  | none => "unknown"

/-- Processing of the blocks of one `ClaudeEvent::Assistant` message. -/
def claudeAssistantBlocks (missionId : Nat) (st : ClaudeState) :
    List CContentBlock → ClaudeState × List AgentEvent
  | [] => (st, [])
  | .text t :: rest =>
    claudeAssistantBlocks missionId
      (if t = "" then st else { st with finalResult := t }) rest
  | .toolUse id name input :: rest =>
    let st := { st with pendingTools := toolsInsert st.pendingTools id name }
    let p := claudeAssistantBlocks missionId st rest
    (p.1, AgentEvent.ToolCall id name input (some missionId) :: p.2)
  | .thinking t :: rest =>
    let p := claudeAssistantBlocks missionId st rest
    if t = "" then p
    else (p.1, AgentEvent.Thinking t true (some missionId) :: p.2)
  | .toolResult _ _ _ :: rest => claudeAssistantBlocks missionId st rest
  | .other :: rest => claudeAssistantBlocks missionId st rest

/-- Processing of the blocks of one `ClaudeEvent::User` message: each
ToolResult block becomes a ToolResult event; the payload is the content
alone, or content with stdout/stderr/is_error when `tool_use_result` is
present (the JSON object is modelled as the concatenation of its
fields). -/
def claudeUserBlocks (missionId : Nat) (st : ClaudeState)
    (toolUseResult : Option (String × String)) :
    List CContentBlock → List AgentEvent
  | [] => []
  | .toolResult id content isError :: rest =>
    let payload :=
      match toolUseResult with
      | some extra =>
        content ++ "|" ++ extra.1 ++ "|" ++ extra.2 ++ "|" ++ toString isError
      | none => content
    AgentEvent.ToolResult id (toolsLookup st.pendingTools id) payload
        (some missionId) ::
      claudeUserBlocks missionId st toolUseResult rest
  | _ :: rest => claudeUserBlocks missionId st toolUseResult rest

/-- One parsed stdout line of the Claude stream loop: the updated state,
the events sent, and whether the loop breaks (a `Result` line). -/
def claudeStep (missionId : Nat) (st : ClaudeState) :
    CEvent → ClaudeState × List AgentEvent × Bool
  | .system => (st, [], false)
  | .streamBlockDelta index deltaType text =>
    match text with
    | none => (st, [], false)
    | some t =>
      if t = "" then (st, [], false)
      else if deltaType = "thinking_delta" then
        match applyThinkingDelta st.think index t with
        | (th, some s) =>
          ({ st with think := th },
            [AgentEvent.Thinking s false (some missionId)], false)
        | (th, none) => ({ st with think := th }, [], false)
      else if deltaType = "text_delta" then
        ({ st with textBuffers := bufAppend st.textBuffers index t }, [],
          false)
      else (st, [], false)
  | .streamBlockStart index blockType id name =>
    let st := { st with
      blockTypes := (index, blockType) ::
        st.blockTypes.filter fun p => p.1 ≠ index }
    if blockType = "tool_use" then
      match id, name with
      | some i, some n =>
        ({ st with pendingTools := toolsInsert st.pendingTools i n }, [],
          false)
      | _, _ => (st, [], false)
    else (st, [], false)
  | .streamOther => (st, [], false)
  | .assistant content =>
    let p := claudeAssistantBlocks missionId st content
    (p.1, p.2, false)
  | .user content toolUseResult =>
    (st, claudeUserBlocks missionId st toolUseResult content, false)
  | .result subtype isError result costCents =>
    let st :=
      match costCents with
      | some c => { st with costCents := c }
      | none => st
    if isError || subtype = "error" then
      ({ st with
          hadError := true,
          finalResult := result.getD "Unknown error" }, [], true)
    else
      match result with
      | some res => ({ st with finalResult := res }, [], true)
      | none => (st, [], true)

/-- Whether every character of a string is whitespace — exactly when
Rust's `s.trim().is_empty()` holds (whitespace modelled at ASCII scope by
`Char.isWhitespace`). -/
def allWhitespace (s : String) : Bool := s.data.all Char.isWhitespace

/-- The post-loop tail of `run_claudecode_turn`: empty output without a
recorded error becomes an error; the result is a failure with reason
`LlmError` or a success. -/
def claudeFinish (st : ClaudeState) : AgentResult :=
  let st :=
    if allWhitespace st.finalResult && !st.hadError then
      { st with
        hadError := true,
        finalResult :=
          "Claude Code produced no output. Check CLI installation or authentication." }
    else st
  if st.hadError then
    (AgentResult.failure st.finalResult st.costCents).withTerminalReason
      .LlmError
  else AgentResult.succeed st.finalResult st.costCents

/-- One item the Claude read loop can wake up on: the cancellation branch
of the `tokio::select!`, a stdout line (empty, unparsable, or parsed), end
of stream, or a read error. -/
inductive ClaudeIn where
  | cancelTrip
  | emptyLine
  | parseFail
  | line (ev : CEvent)
  | eof
  | readErr
deriving DecidableEq, Repr

/-- Outcome of a turn's read loop: the `AgentResult` it returns and
whether `child.kill()` was issued. -/
structure TurnEnd where
  result : AgentResult
  childKilled : Bool
deriving DecidableEq, Repr

/-- The events that processing `inputs` emits, ignoring loop exits (used
to phrase what the loop has emitted before a cancellation trip). -/
def claudeEventsOf (missionId : Nat) (st : ClaudeState) :
    List ClaudeIn → List AgentEvent
  | [] => []
  | .line ev :: rest =>
    let p := claudeStep missionId st ev
    p.2.1 ++ claudeEventsOf missionId p.1 rest
  | .cancelTrip :: rest => claudeEventsOf missionId st rest
  | .emptyLine :: rest => claudeEventsOf missionId st rest
  | .parseFail :: rest => claudeEventsOf missionId st rest
  | .eof :: rest => claudeEventsOf missionId st rest
  | .readErr :: rest => claudeEventsOf missionId st rest

/-- The read loop of `run_claudecode_turn`: on a cancellation trip the
child is killed and the loop returns the `Cancelled` failure immediately;
empty and malformed lines are skipped; a `Result` line breaks the loop;
EOF or a read error breaks the loop. -/
def runClaudeLoop (missionId : Nat) (st : ClaudeState) :
    List ClaudeIn → List AgentEvent × TurnEnd
  | [] => ([], ⟨claudeFinish st, false⟩)
  | .cancelTrip :: _ =>
    ([], ⟨(AgentResult.failure "Cancelled" 0).withTerminalReason .Cancelled,
      true⟩)
  | .emptyLine :: rest => runClaudeLoop missionId st rest
  | .parseFail :: rest => runClaudeLoop missionId st rest
  | .line ev :: rest =>
    let p := claudeStep missionId st ev
    if p.2.2 then (p.2.1, ⟨claudeFinish p.1, false⟩)
    else
      let q := runClaudeLoop missionId p.1 rest
      (p.2.1 ++ q.1, q.2)
  | .eof :: _ => ([], ⟨claudeFinish st, false⟩)
  | .readErr :: _ => ([], ⟨claudeFinish st, false⟩)

/-! ### OpenCode adapter: stdout loop and cancellation
(`run_opencode_turn`) -/

/-- The accumulation state of the OpenCode stdout loop. -/
structure OCState where
  finalResult : String
  hadError : Bool
deriving DecidableEq, Repr

/-- One item the OpenCode stdout loop can wake up on. -/
inductive OCIn where
  | cancelTrip
  | chunk (s : String)
  | readErr
deriving DecidableEq, Repr

/-- Outcome of the OpenCode stdout loop: either the cancellation return
(recording that the child was killed and the stderr reader task aborted)
or fall-through to the post-loop processing with the accumulated
state. -/
inductive OCOutcome where
  | cancelled (result : AgentResult) (childKilled stderrAborted : Bool)
  | ended (st : OCState)
deriving DecidableEq, Repr

/-- Substring test used for the stdout error sniffing
(`chunk.contains("Error:") || chunk.contains("error:")`). -/
def containsErrorMarker (s : String) : Bool :=
  decide ("Error:".data <:+: s.data) || decide ("error:".data <:+: s.data)

/-- One stdout chunk of `run_opencode_turn`: append to `final_result`,
flag errors, forward as a Thinking event. -/
def ocStep (missionId : Nat) (st : OCState) (s : String) :
    OCState × List AgentEvent :=
  if s = "" then (st, [])
  else
    ({ finalResult := st.finalResult ++ s,
        hadError := st.hadError || containsErrorMarker s },
      [AgentEvent.Thinking s false (some missionId)])

/-- The events the stdout loop emits while processing `inputs`, ignoring
loop exits. -/
def ocEventsOf (missionId : Nat) (st : OCState) : List OCIn → List AgentEvent
  | [] => []
  | .chunk s :: rest =>
    let p := ocStep missionId st s
    p.2 ++ ocEventsOf missionId p.1 rest
  | .cancelTrip :: rest => ocEventsOf missionId st rest
  | .readErr :: rest => ocEventsOf missionId st rest

/-- The stdout read loop of `run_opencode_turn`: on a cancellation trip
the child is killed, the stderr task is aborted and the `Cancelled`
failure is returned immediately; EOF (end of the list) or a read error
falls through to the post-loop processing. -/
def runOpencodeStdout (missionId : Nat) (st : OCState) :
    List OCIn → List AgentEvent × OCOutcome
  | [] => ([], .ended st)
  | .cancelTrip :: _ =>
    ([], .cancelled
      ((AgentResult.failure "Cancelled" 0).withTerminalReason .Cancelled)
      true true)
  | .chunk s :: rest =>
    let p := ocStep missionId st s
    let q := runOpencodeStdout missionId p.1 rest
    (p.2 ++ q.1, q.2)
  | .readErr :: _ => ([], .ended st)

/-! ### OpenCode storage fallback
(`load_latest_opencode_assistant_text`) -/

/-- A message record under `storage/message/<session_id>/`, as the fields
the source reads (`role`, `time.created`, `id`); directory listings are
modelled as lists of already-parsed records. -/
structure MsgRec where
  role : String
  created : Int
  id : String
deriving DecidableEq, Repr

/-- A part record under `storage/part/<message_id>/`, as the fields the
source reads (`type`, `text`, `time.start`); missing fields default as in
the source (`unwrap_or`). -/
structure PartRec where
  ptype : String
  text : String
  start : Int
deriving DecidableEq, Repr

/-- A synthetic OpenCode storage tree: the message records of the session
directory, and for each message id the `(filename, record)` listing of
its part directory. -/
structure OCStorage where
  msgs : List MsgRec
  parts : String → List (String × PartRec)

/-- The newest-assistant-message scan of
`load_latest_opencode_assistant_text`: fold over the directory listing,
keeping the id of the last record with `role == "assistant"` whose
`time.created` is at least the running maximum (initially `0`). -/
def selectLatest : List MsgRec → Int → Option String → Option String
  | [], _, acc => acc
  | m :: rest, latest, acc =>
    if m.role = "assistant" ∧ latest ≤ m.created then
      selectLatest rest m.created (some m.id)
    else selectLatest rest latest acc

/-- The part-collection loop: keep `(time.start, filename, text)` for
parts with `type == "text"` and non-empty `text`. -/
def collectTextParts : List (String × PartRec) → List (Int × String × String)
  | [] => []
  | (fname, p) :: rest =>
    if p.ptype = "text" ∧ p.text ≠ "" then
      (p.start, fname, p.text) :: collectTextParts rest
    else collectTextParts rest

/-- Lexicographic comparison of char lists, modelling Rust's `String`
ordering (UTF-8 byte order coincides with scalar-value order). -/
def charListLe : List Char → List Char → Bool
  | [], _ => true
  | _ :: _, [] => false
  | a :: as, b :: bs =>
    if a < b then true else if b < a then false else charListLe as bs

/-- The comparator `(time.start, filename)` used by the source's
`parts.sort_by`: compare start times, break ties by filename. -/
def partLe (a b : Int × String × String) : Prop :=
  a.1 < b.1 ∨ (a.1 = b.1 ∧ charListLe a.2.1.data b.2.1.data = true)

instance : DecidableRel partLe := fun a b => by
  unfold partLe; infer_instance

instance : IsTotal (Int × String × String) partLe where
  total a b := by
    rcases lt_trichotomy a.1 b.1 with h | h | h
    · exact Or.inl (Or.inl h)
    · have key : ∀ x y : List Char,
          charListLe x y = true ∨ charListLe y x = true := by
        intro x
        induction x with
        | nil => intro y; exact Or.inl rfl
        | cons c cs ih =>
          intro y
          cases y with
          | nil => exact Or.inr rfl
          | cons d ds =>
            rcases lt_trichotomy c d with hcd | hcd | hcd
            · left; simp [charListLe, hcd]
            · subst hcd
              rcases ih ds with h2 | h2
              · left; simp [charListLe, h2]
              · right; simp [charListLe, h2]
            · right; simp [charListLe, hcd]
      rcases key a.2.1.data b.2.1.data with h2 | h2
      · exact Or.inl (Or.inr ⟨h, h2⟩)
      · exact Or.inr (Or.inr ⟨h.symm, h2⟩)
    · exact Or.inr (Or.inl h)

instance : IsTrans (Int × String × String) partLe where
  trans a b c hab hbc := by
    have key : ∀ x y z : List Char, charListLe x y = true →
        charListLe y z = true → charListLe x z = true := by
      intro x
      induction x with
      | nil => intro y z _ _; rfl
      | cons cx xs ih =>
        intro y z hxy hyz
        cases y with
        | nil => simp [charListLe] at hxy
        | cons cy ys =>
          cases z with
          | nil => simp [charListLe] at hyz
          | cons cz zs =>
            rw [charListLe] at hxy hyz ⊢
            by_cases h1 : cx < cy
            · by_cases h2 : cy < cz
              · simp [h1.trans h2]
              · by_cases h3 : cz < cy
                · simp [h1, h2, h3] at hyz
                · have hcy : cy = cz := le_antisymm (not_lt.mp h3) (not_lt.mp h2)
                  subst hcy
                  simp [h1]
            · by_cases h1' : cy < cx
              · simp [h1, h1'] at hxy
              · have hcx : cx = cy := le_antisymm (not_lt.mp h1') (not_lt.mp h1)
                subst hcx
                by_cases h2 : cx < cz
                · simp [h2]
                · by_cases h3 : cz < cx
                  · simp [h2, h3] at hyz
                  · simp [h1, h2, h3] at hxy hyz ⊢
                    exact ih ys zs hxy hyz
    rcases hab with h | ⟨he, hf⟩
    · rcases hbc with h' | ⟨he', _⟩
      · exact Or.inl (h.trans h')
      · exact Or.inl (he' ▸ h)
    · rcases hbc with h' | ⟨he', hf'⟩
      · exact Or.inl (he ▸ h')
      · exact Or.inr ⟨he.trans he', key _ _ _ hf hf'⟩

/-- `load_latest_opencode_assistant_text` from
`src/api/mission_runner.rs`, over a synthetic storage tree: pick the
newest assistant message, collect its non-empty text parts, sort by
`(time.start, filename)`, concatenate; a whitespace-only concatenation
(`combined.trim().is_empty()` in the source) yields `None`. -/
def loadLatestAssistantText (st : OCStorage) : Option String :=
  match selectLatest st.msgs 0 none with
  | none => none
  | some mid =>
    let parts := collectTextParts (st.parts mid)
    if parts = [] then none
    else
      let sorted := List.insertionSort partLe parts
      let combined := String.join (sorted.map fun p => p.2.2)
      if allWhitespace combined then none else some combined

/-- Modelled from the spec (the refinement target for the
storage-fallback claim): the concatenation of the `text` fields of the
parts with type `"text"`, taken in lexicographic order of
`(time.start, filename)`. -/
def specRecoveredText (listing : List (String × PartRec)) : String :=
  String.join
    ((List.insertionSort partLe
        (((listing.filter fun fp => fp.2.ptype = "text").map
          fun fp => (fp.2.start, fp.1, fp.2.text)))).map
      fun p => p.2.2)

/-! ### Auxiliary definitions used by the theorems -/

/-- Whether a parsed Claude line is a `Result` line (the only line kind
that breaks the read loop). -/
def CEvent.isResultLine : CEvent → Bool
  | .result _ _ _ _ => true
  | .system => false
  | .streamBlockStart _ _ _ _ => false
  | .streamBlockDelta _ _ _ => false
  | .streamOther => false
  | .assistant _ => false
  | .user _ _ => false

/-- Loop inputs that keep the Claude read loop going (everything except a
cancellation trip, a `Result` line, EOF and a read error). -/
def ClaudeIn.keepsLooping : ClaudeIn → Bool
  | .emptyLine => true
  | .parseFail => true
  | .line ev => !ev.isResultLine
  | .cancelTrip => false
  | .eof => false
  | .readErr => false

/-- Loop inputs that keep the OpenCode stdout loop going. -/
def OCIn.isChunk : OCIn → Bool
  | .chunk _ => true
  | .cancelTrip => false
  | .readErr => false

/-- Reference decimal digit list of a natural number (most significant
first), used to reason about the `format!("{}_{}", base, i)` suffixes of
`unique_key`. -/
def natDigits (n : Nat) : List Char :=
  if n < 10 then [Nat.digitChar n]
  else natDigits (n / 10) ++ [Nat.digitChar (n % 10)]
decreasing_by exact Nat.div_lt_self (by omega) (by omega)

/-- Decimal valuation of a digit list (left inverse of `natDigits`). -/
def digitsVal (l : List Char) : Nat :=
  l.foldl (fun a c => a * 10 + (c.toNat - 48)) 0

/-- Keys for names after `j ≥ 1` same-base insertions: `base` plus
`base_2 … base_j`, most recent first (the shape of the `used` set while
`write_opencode_config` processes identically-named MCP servers). -/
def usedAfter (b : String) (j : Nat) : List String :=
  ((List.range' 2 (j - 1)).map fun i => b ++ "_" ++ toString i).reverse ++
    [b]

/-! ## Theorems -/

/-! ### C10 — `cancel` frame conditions -/

/-- Claim C10: `cancel()` is total; with no token present it leaves the
runner unchanged, and with a token present it only trips the token and
mutates no other runner field. -/
theorem cancel_frame (r : MissionRunner) :
    (r.cancelToken = none → r.cancel = r) ∧
    (∀ b, r.cancelToken = some b → r.cancel.cancelToken = some true) ∧
    r.cancel.missionId = r.missionId ∧
    r.cancel.state = r.state ∧
    r.cancel.queue = r.queue ∧
    r.cancel.history = r.history ∧
    r.cancel.runningHandle = r.runningHandle ∧
    r.cancel.lastActivity = r.lastActivity ∧
    r.cancel.explicitlyCompleted = r.explicitlyCompleted := by
  cases h : r.cancelToken <;> simp [MissionRunner.cancel, h]

/-- Witness for C10: a concrete runner with a present, untripped token
has it tripped by `cancel`. -/
theorem cancel_frame_witness :
    (⟨0, .Queued, [], [], some false, none, 0, false⟩ :
      MissionRunner).cancel.cancelToken = some true :=
  (cancel_frame _).2.1 false rfl

/-! ### C9 — `start_next` is a refusing no-op when running or empty -/

/-- Claim C9: `start_next` while a turn is running (state `Running` or
`WaitingForTool`) or with an empty queue returns `false` and changes
nothing: no state/queue/history/token/handle mutation, no `UserMessage`
event, no spawned task. -/
theorem startNext_noop (r : MissionRunner) (spawned : TaskHandle)
    (h : r.isRunning = true ∨ r.queue = []) :
    r.startNext spawned = ⟨r, false, [], none⟩ := by
  unfold MissionRunner.startNext
  rcases h with h | h
  · simp [h]
  · cases hr : r.isRunning <;> simp [h, hr]

/-- Witness for C9: a queued runner with an empty queue refuses. -/
theorem startNext_noop_witness :
    (⟨0, .Queued, [], [], none, none, 0, false⟩ :
        MissionRunner).startNext ⟨false, .panicked⟩ =
      ⟨⟨0, .Queued, [], [], none, none, 0, false⟩, false, [], none⟩ :=
  startNext_noop _ _ (Or.inr rfl)

/-! ### C2 — `start_next` after explicit completion -/

/-- Counterexample for C2: a runner on which explicit completion has been
recorded (`explicitly_completed = true`), in state `Queued` with a
non-empty queue, is NOT refused by `start_next`: the call returns `true`
and pops the queue (the source never consults `explicitly_completed` in
`start_next`). -/
theorem startNext_after_completion_cex :
    (⟨0, .Queued, [⟨1, "next", none⟩], [], none, none, 0, true⟩ :
        MissionRunner).explicitlyCompleted = true ∧
    ((⟨0, .Queued, [⟨1, "next", none⟩], [], none, none, 0, true⟩ :
        MissionRunner).startNext ⟨false, .panicked⟩).started = true ∧
    ((⟨0, .Queued, [⟨1, "next", none⟩], [], none, none, 0, true⟩ :
        MissionRunner).startNext ⟨false, .panicked⟩).runner.queue = [] ∧
    ((⟨0, .Queued, [⟨1, "next", none⟩], [], none, none, 0, true⟩ :
        MissionRunner).startNext ⟨false, .panicked⟩).runner.state =
      .Running := by
  decide

/-- Claim C2 as amended: recorded explicit completion does not by itself
make `start_next` refuse — with the runner not running and a non-empty
queue, `start_next` proceeds normally (returns `true`, pops the head
message, moves to `Running`, leaves `explicitly_completed` set);
`start_next` refuses only when running or when the queue is empty. -/
theorem startNext_after_completion (r : MissionRunner)
    (spawned : TaskHandle) (hc : r.explicitlyCompleted = true)
    (hr : r.isRunning = false) (hq : r.queue ≠ []) :
    (r.startNext spawned).started = true ∧
    (r.startNext spawned).runner.state = .Running ∧
    (r.startNext spawned).runner.queue = r.queue.tail ∧
    (r.startNext spawned).runner.explicitlyCompleted = true ∧
    (r.startNext spawned).spawnedFor = r.queue.head? := by
  cases hql : r.queue with
  | nil => exact absurd hql hq
  | cons m rest => simp [MissionRunner.startNext, hr, hql, hc]

/-- Witness for C2's amended claim at a concrete runner. -/
theorem startNext_after_completion_witness :
    ((⟨3, .Queued, [⟨1, "go", none⟩], [], none, none, 0, true⟩ :
        MissionRunner).startNext ⟨false, .panicked⟩).started = true :=
  (startNext_after_completion _ ⟨false, .panicked⟩ rfl (by decide)
    (by decide)).1

/-! ### C1 — `poll_completion` on a finished task -/

/-- Counterexample for C1: when the `complete_mission` sentinel is
observed in the turn output, `poll_completion` still sets the state to
`Queued`, not `Finished` (only `explicitly_completed` is recorded). -/
theorem pollCompletion_sentinel_cex :
    containsSentinel
        (AgentResult.succeed "Done. complete_mission was called." 0).output =
      true ∧
    ((⟨0, .Running, [], [], some false,
        some ⟨true, .ok 7 "do it"
          (AgentResult.succeed "Done. complete_mission was called." 0)⟩,
        0, false⟩ : MissionRunner).pollCompletion 5).1.state = .Queued ∧
    ((⟨0, .Running, [], [], some false,
        some ⟨true, .ok 7 "do it"
          (AgentResult.succeed "Done. complete_mission was called." 0)⟩,
        0, false⟩ : MissionRunner).pollCompletion 5).1.state ≠
      .Finished := by
  decide

/-- Claim C1 as amended: for a spawned turn task that finished without
panicking, `poll_completion` awaits it, touches the activity timestamp,
appends the user and assistant entries to history, and sets the state to
`Queued` in every such case; observing the `complete_mission` sentinel in
the turn output sets the `explicitly_completed` flag rather than moving
the state to `Finished`.  The `(msg_id, input, result)` triple is
returned. -/
theorem pollCompletion_ok (r : MissionRunner) (now : Nat) (h : TaskHandle)
    (msgId : Nat) (input : String) (res : AgentResult)
    (hh : r.runningHandle = some h) (hf : h.finished = true)
    (ho : h.outcome = .ok msgId input res) :
    (r.pollCompletion now).2 = some (msgId, input, res) ∧
    (r.pollCompletion now).1.state = .Queued ∧
    (r.pollCompletion now).1.lastActivity = now ∧
    (r.pollCompletion now).1.history =
      r.history ++ [("user", input), ("assistant", res.output)] ∧
    (r.pollCompletion now).1.explicitlyCompleted =
      (r.explicitlyCompleted || containsSentinel res.output) ∧
    (r.pollCompletion now).1.runningHandle = none := by
  unfold MissionRunner.pollCompletion
  rw [hh]
  cases hs : containsSentinel res.output <;> simp [hf, ho, hs]

/-- Witness for C1's amended claim at a concrete runner. -/
theorem pollCompletion_ok_witness :
    ((⟨0, .Running, [], [("user", "hi"), ("assistant", "hello")],
        some false, some ⟨true, .ok 7 "do it" (AgentResult.succeed "ok" 0)⟩,
        0, false⟩ : MissionRunner).pollCompletion 5).1.history =
      [("user", "hi"), ("assistant", "hello"), ("user", "do it"),
        ("assistant", "ok")] :=
  (pollCompletion_ok _ 5 _ 7 "do it" (AgentResult.succeed "ok" 0) rfl rfl
    rfl).2.2.2.1

/-! ### C4 — history growth on turn completion -/

/-- Claim C4: for a finished turn task, the conversation history grows by
exactly two entries — the user message then the assistant output — iff
the task did not panic; on a panic the history is unchanged and the state
becomes `Finished`. -/
theorem pollCompletion_history (r : MissionRunner) (now : Nat)
    (h : TaskHandle) (hh : r.runningHandle = some h)
    (hf : h.finished = true) :
    ((r.pollCompletion now).1.history.length = r.history.length + 2 ↔
      h.outcome ≠ .panicked) ∧
    (h.outcome = .panicked →
      (r.pollCompletion now).1.history = r.history ∧
      (r.pollCompletion now).1.state = .Finished) ∧
    (∀ msgId input res, h.outcome = .ok msgId input res →
      (r.pollCompletion now).1.history =
        r.history ++ [("user", input), ("assistant", res.output)]) := by
  unfold MissionRunner.pollCompletion
  rw [hh]
  cases ho : h.outcome with
  | panicked => simp [hf, ho]
  | ok msgId input res =>
    cases hs : containsSentinel res.output <;> simp [hf, ho, hs]

/-- Witness for C4 at a concrete runner whose task panicked. -/
theorem pollCompletion_history_witness :
    ((⟨0, .Running, [], [("user", "hi")], some false,
        some ⟨true, .panicked⟩, 0, false⟩ :
          MissionRunner).pollCompletion 9).1.history = [("user", "hi")] ∧
    ((⟨0, .Running, [], [("user", "hi")], some false,
        some ⟨true, .panicked⟩, 0, false⟩ :
          MissionRunner).pollCompletion 9).1.state = .Finished :=
  (pollCompletion_history _ 9 _ rfl rfl).2.1 rfl

/-! ### C8 — `build_history_context` and the character limit -/

theorem string_ne_empty_of_length_pos {s : String} (h : 0 < s.length) :
    s ≠ "" := by
  intro he
  rw [he] at h
  simp at h

theorem entryString_length_pos (role content : String) :
    0 < (entryString role content).length := by
  simp only [entryString, String.length_append]
  have : (0 : Nat) < ": ".length := by decide
  omega

theorem buildHistoryGo_length_le (m K : Nat) (hmK : m ≤ K) :
    ∀ (l : List (String × String)) (acc : String) (total : Nat),
      acc.length = total → total ≤ K → acc ≠ "" →
      (buildHistoryGo m l acc total).length ≤ K := by
  intro l
  induction l with
  | nil =>
    intro acc total h1 h2 _
    rw [buildHistoryGo]
    exact h1 ▸ h2
  | cons p rest ih =>
    intro acc total h1 h2 h3
    obtain ⟨role, content⟩ := p
    rw [buildHistoryGo]
    split
    · exact h1 ▸ h2
    · rename_i hcond
      have hle : total + (entryString role content).length ≤ m := by
        rcases Nat.lt_or_ge m (total + (entryString role content).length)
          with hlt | hge
        · exact absurd ⟨hlt, h3⟩ hcond
        · exact hge
      apply ih
      · rw [String.length_append, h1]
        omega
      · omega
      · apply string_ne_empty_of_length_pos
        rw [String.length_append]
        have := entryString_length_pos role content
        omega

/-- Counterexample for C8: with `max_history_total_chars = 1`, a history
whose single entry formats to 13 characters still yields that whole entry
(the source always keeps the first — most recent — entry), so the result
exceeds the limit; the entry format is `"USER: aaaaa\n\n"`, not
`ROLE:\n`-prefixed. -/
theorem historyContext_limit_cex :
    buildHistoryContext [("user", "aaaaa")] 1 = "USER: aaaaa\n\n" ∧
    1 < (buildHistoryContext [("user", "aaaaa")] 1).length := by
  constructor
  · rfl
  · decide

/-- Claim C8 as amended: the history-context string is assembled by
walking history in reverse, formatting each entry as the uppercased role,
`": "`, the content, and two newlines, prepending it, and stopping as
soon as a new entry would push the total over `max_history_total_chars` —
except that the most recent entry is always included, even when it alone
overflows.  Hence the result length is bounded by the maximum of the
limit and the most recent entry's length, and when the most recent
entry alone exceeds the limit it is the entire result. -/
theorem historyContext_length (history : List (String × String))
    (m : Nat) :
    (buildHistoryContext history m).length ≤
      max m ((history.getLast?.map fun rc =>
        (entryString rc.1 rc.2).length).getD 0) ∧
    (∀ role content tailh, history = tailh ++ [(role, content)] →
      m < (entryString role content).length →
      buildHistoryContext history m = entryString role content) := by
  constructor
  · unfold buildHistoryContext
    cases hrev : history.reverse with
    | nil => simp [buildHistoryGo]
    | cons p rest =>
      obtain ⟨role, content⟩ := p
      have hlast : history.getLast? = some (role, content) := by
        rw [← List.head?_reverse, hrev]
        rfl
      rw [hlast]
      rw [buildHistoryGo]
      rw [if_neg (by simp)]
      rw [String.append_empty]
      apply buildHistoryGo_length_le _ _ (le_max_left _ _)
      · exact (Nat.zero_add _).symm
      · simp
      · exact string_ne_empty_of_length_pos (entryString_length_pos _ _)
  · intro role content tailh hh hm
    subst hh
    unfold buildHistoryContext
    rw [List.reverse_append]
    simp only [List.reverse_cons, List.reverse_nil, List.nil_append,
      List.cons_append, List.singleton_append]
    rw [buildHistoryGo]
    rw [if_neg (by simp)]
    simp only [String.append_empty, Nat.zero_add]
    cases tailh.reverse with
    | nil => rw [buildHistoryGo]
    | cons q qs =>
      obtain ⟨r2, c2⟩ := q
      rw [buildHistoryGo]
      rw [if_pos]
      refine ⟨?_, string_ne_empty_of_length_pos (entryString_length_pos _ _)⟩
      have := entryString_length_pos r2 c2
      omega

/-- Witness for C8's amended claim: with limit 1, a one-entry history
yields exactly that (overflowing) entry. -/
theorem historyContext_length_witness :
    buildHistoryContext [("user", "aaaaa")] 1 =
      entryString "user" "aaaaa" :=
  (historyContext_length [("user", "aaaaa")] 1).2 "user" "aaaaa" []
    rfl (by decide)

/-! ### C3 — Claude thinking-delta accumulation -/

theorem totalLen_bufAppend (bufs : List (Nat × String)) (i : Nat)
    (t : String) :
    totalLen (bufAppend bufs i t) = totalLen bufs + t.length := by
  induction bufs with
  | nil => simp [bufAppend, totalLen]
  | cons p rest ih =>
    obtain ⟨j, s⟩ := p
    rw [bufAppend]
    split
    · simp [totalLen, String.length_append]
      omega
    · split
      · simp [totalLen]
        omega
      · simp [totalLen] at ih ⊢
        omega

theorem concatBuffers_length (bufs : List (Nat × String)) :
    (concatBuffers bufs).length = totalLen bufs := by
  induction bufs with
  | nil => rfl
  | cons p rest ih =>
    have h : concatBuffers (p :: rest) = p.2 ++ concatBuffers rest := by
      apply String.ext
      simp [concatBuffers, String.data_join]
    rw [h, String.length_append, ih]
    simp [totalLen]

theorem runThinking_facts (deltas : List (Nat × String)) :
    ∀ st : ThinkState, st.lastLen ≤ totalLen st.buffers →
      (∀ s ∈ runThinking st deltas, st.lastLen ≤ s.length) ∧
        List.Chain' (fun a b : String => a.length ≤ b.length)
          (runThinking st deltas) := by
  induction deltas with
  | nil => intro st _; simp [runThinking]
  | cons d rest ih =>
    intro st hinv
    obtain ⟨i, t⟩ := d
    by_cases ht : t = ""
    · have happ : applyThinkingDelta st i t = (st, none) := by
        simp [applyThinkingDelta, ht]
      rw [runThinking, happ]
      exact ih st hinv
    · have htot : totalLen (bufAppend st.buffers i t) =
          totalLen st.buffers + t.length :=
        totalLen_bufAppend _ _ _
      by_cases hgrow : st.lastLen < totalLen (bufAppend st.buffers i t)
      · have happ : applyThinkingDelta st i t =
            (⟨bufAppend st.buffers i t, totalLen (bufAppend st.buffers i t)⟩,
              some (concatBuffers (bufAppend st.buffers i t))) := by
          simp [applyThinkingDelta, ht, hgrow]
        rw [runThinking, happ]
        obtain ⟨h1, h2⟩ := ih
          ⟨bufAppend st.buffers i t, totalLen (bufAppend st.buffers i t)⟩
          (le_refl _)
        have hclen : (concatBuffers (bufAppend st.buffers i t)).length =
            totalLen (bufAppend st.buffers i t) := concatBuffers_length _
        constructor
        · intro s hs
          rcases List.mem_cons.mp hs with hs | hs
          · rw [hs, hclen]; exact le_of_lt hgrow
          · exact le_trans (le_of_lt hgrow) (h1 s hs)
        · rw [List.chain'_cons']
          refine ⟨?_, h2⟩
          intro y hy
          rw [hclen]
          exact h1 y (List.mem_of_mem_head? hy)
      · have happ : applyThinkingDelta st i t =
            (⟨bufAppend st.buffers i t, st.lastLen⟩, none) := by
          simp [applyThinkingDelta, ht, hgrow]
        rw [runThinking, happ]
        exact ih ⟨bufAppend st.buffers i t, st.lastLen⟩
          (by
            show st.lastLen ≤ totalLen (bufAppend st.buffers i t)
            omega)

/-- Counterexample for C3: thinking deltas at indices `0, 1, 0` produce
emissions `"I ", "I x", "I yx"`; the third emission is not a
prefix-extension of the second (buffers at different indices interleave
in the cumulative concatenation). -/
theorem thinking_not_prefix_cex :
    runThinking initThinkState [(0, "I "), (1, "x"), (0, "y")] =
      ["I ", "I x", "I yx"] ∧
    "I x".data.isPrefixOf "I yx".data = false := by
  constructor
  · rfl
  · decide

/-- Claim C3 as amended: each `thinking_delta` appends its text to the
per-index buffer, and a Thinking event carrying the concatenation of all
buffers (in index order, the embedding's canonical determinisation of the
source's map iteration) is emitted exactly when the total buffered length
grew past the last-emitted watermark; consequently the sequence of
emitted Thinking contents is monotone-non-decreasing in length.
Successive emissions need NOT be prefix-extensions of one another. -/
theorem thinking_monotone (deltas : List (Nat × String)) :
    List.Chain' (fun a b : String => a.length ≤ b.length)
      (runThinking initThinkState deltas) :=
  (runThinking_facts deltas initThinkState (le_refl 0)).2

/-! ### C5 — cancellation in both adapters -/

theorem claudeStep_break (mid : Nat) (st : ClaudeState) (ev : CEvent) :
    (claudeStep mid st ev).2.2 = ev.isResultLine := by
  cases ev <;>
    simp only [claudeStep, CEvent.isResultLine] <;>
    (repeat' split) <;> rfl

theorem runClaudeLoop_cancel (mid : Nat) (pre : List ClaudeIn) :
    ∀ (st : ClaudeState) (rest : List ClaudeIn),
      (∀ x ∈ pre, x.keepsLooping = true) →
      runClaudeLoop mid st (pre ++ ClaudeIn.cancelTrip :: rest) =
        (claudeEventsOf mid st pre,
          ⟨(AgentResult.failure "Cancelled" 0).withTerminalReason
              .Cancelled, true⟩) := by
  induction pre with
  | nil => intro st rest _; rfl
  | cons x xs ih =>
    intro st rest hx
    have hx0 := hx x (List.mem_cons_self _ _)
    have hxs : ∀ y ∈ xs, y.keepsLooping = true := fun y hy =>
      hx y (List.mem_cons_of_mem _ hy)
    cases x with
    | cancelTrip => simp [ClaudeIn.keepsLooping] at hx0
    | eof => simp [ClaudeIn.keepsLooping] at hx0
    | readErr => simp [ClaudeIn.keepsLooping] at hx0
    | emptyLine =>
      rw [List.cons_append, runClaudeLoop, claudeEventsOf]
      exact ih st rest hxs
    | parseFail =>
      rw [List.cons_append, runClaudeLoop, claudeEventsOf]
      exact ih st rest hxs
    | line ev =>
      have hres : ev.isResultLine = false := by
        simpa [ClaudeIn.keepsLooping] using hx0
      have hterm : (claudeStep mid st ev).2.2 = false := by
        rw [claudeStep_break, hres]
      rw [List.cons_append, runClaudeLoop, claudeEventsOf]
      simp only [hterm, if_false, Bool.false_eq_true]
      rw [ih (claudeStep mid st ev).1 rest hxs]

theorem runOpencodeStdout_cancel (mid : Nat) (pre : List OCIn) :
    ∀ (st : OCState) (rest : List OCIn),
      (∀ x ∈ pre, x.isChunk = true) →
      runOpencodeStdout mid st (pre ++ OCIn.cancelTrip :: rest) =
        (ocEventsOf mid st pre,
          .cancelled
            ((AgentResult.failure "Cancelled" 0).withTerminalReason
              .Cancelled) true true) := by
  induction pre with
  | nil => intro st rest _; rfl
  | cons x xs ih =>
    intro st rest hx
    have hx0 := hx x (List.mem_cons_self _ _)
    have hxs : ∀ y ∈ xs, y.isChunk = true := fun y hy =>
      hx y (List.mem_cons_of_mem _ hy)
    cases x with
    | cancelTrip => simp [OCIn.isChunk] at hx0
    | readErr => simp [OCIn.isChunk] at hx0
    | chunk s =>
      rw [List.cons_append, runOpencodeStdout, ocEventsOf]
      rw [ih (ocStep mid st s).1 rest hxs]

/-- Claim C5: in both adapters, when the cancellation token trips during
a turn (after any run of loop inputs that keep the read loop going), the
child process is killed (and for OpenCode the stderr-reader task is
aborted), the turn returns an `AgentResult` with `success = false` and
terminal reason `Cancelled`, and no event at all — in particular no
`Error` event — is emitted by the adapter after the trip: the emitted
events are exactly those of the inputs processed before the trip. -/
theorem adapters_cancelled (mid : Nat) (stC : ClaudeState) (stO : OCState)
    (preC restC : List ClaudeIn) (preO restO : List OCIn)
    (hC : ∀ x ∈ preC, x.keepsLooping = true)
    (hO : ∀ x ∈ preO, x.isChunk = true) :
    runClaudeLoop mid stC (preC ++ ClaudeIn.cancelTrip :: restC) =
      (claudeEventsOf mid stC preC,
        ⟨(AgentResult.failure "Cancelled" 0).withTerminalReason .Cancelled,
          true⟩) ∧
    runOpencodeStdout mid stO (preO ++ OCIn.cancelTrip :: restO) =
      (ocEventsOf mid stO preO,
        .cancelled
          ((AgentResult.failure "Cancelled" 0).withTerminalReason
            .Cancelled) true true) ∧
    ((AgentResult.failure "Cancelled" 0).withTerminalReason
        .Cancelled).success = false ∧
    ((AgentResult.failure "Cancelled" 0).withTerminalReason
        .Cancelled).terminalReason = .Cancelled :=
  ⟨runClaudeLoop_cancel mid preC stC restC hC,
    runOpencodeStdout_cancel mid preO stO restO hO, rfl, rfl⟩

/-! ### C6 — OpenCode storage fallback -/

theorem join_cons (s : String) (l : List String) :
    String.join (s :: l) = s ++ String.join l := by
  apply String.ext
  simp [String.data_join]

theorem charListLe_antisymm :
    ∀ x y : List Char, charListLe x y = true → charListLe y x = true →
      x = y := by
  intro x
  induction x with
  | nil =>
    intro y _ h2
    cases y with
    | nil => rfl
    | cons d ds => simp [charListLe] at h2
  | cons c cs ih =>
    intro y h1 h2
    cases y with
    | nil => simp [charListLe] at h1
    | cons d ds =>
      rw [charListLe] at h1 h2
      by_cases hcd : c < d
      · simp [hcd, lt_asymm hcd] at h2
      · by_cases hdc : d < c
        · simp [hcd, hdc] at h1
        · have hcdeq : c = d := le_antisymm (not_lt.mp hdc) (not_lt.mp hcd)
          subst hcdeq
          simp [lt_irrefl] at h1 h2
          rw [ih ds h1 h2]

theorem partLe_antisymm_key {a b : Int × String × String}
    (hab : partLe a b) (hba : partLe b a) : a.1 = b.1 ∧ a.2.1 = b.2.1 := by
  rcases hab with h | ⟨he, hf⟩ <;> rcases hba with h' | ⟨he', hf'⟩
  · exact absurd h' (lt_asymm h)
  · exact absurd h (by rw [he']; exact lt_irrefl _)
  · exact absurd h' (by rw [he]; exact lt_irrefl _)
  · exact ⟨he, String.ext (charListLe_antisymm _ _ hf hf')⟩

theorem eq_of_perm_of_sorted_partLe :
    ∀ {l₁ l₂ : List (Int × String × String)}, l₁.Perm l₂ →
      l₁.Pairwise partLe → l₂.Pairwise partLe →
      (l₁.map fun p => (p.1, p.2.1)).Nodup → l₁ = l₂ := by
  intro l₁
  induction l₁ with
  | nil =>
    intro l₂ hp _ _ _
    exact (List.Perm.eq_nil hp.symm).symm
  | cons a t₁ ih =>
    intro l₂ hp hs₁ hs₂ hnd
    cases l₂ with
    | nil =>
      have := List.Perm.eq_nil hp
      simp at this
    | cons b t₂ =>
      have hnd2 : ((a.1, a.2.1) ∉ t₁.map fun p => (p.1, p.2.1)) ∧
          (t₁.map fun p => (p.1, p.2.1)).Nodup := by
        rw [List.map_cons, List.nodup_cons] at hnd
        exact hnd
      by_cases hab : a = b
      · subst hab
        have ht := hp.cons_inv
        rw [ih ht (List.pairwise_cons.mp hs₁).2 (List.pairwise_cons.mp hs₂).2
          hnd2.2]
      · exfalso
        have ha2 : a ∈ b :: t₂ := hp.subset (List.mem_cons_self _ _)
        have ha : a ∈ t₂ := by
          rcases List.mem_cons.mp ha2 with h | h
          · exact absurd h hab
          · exact h
        have hb2 : b ∈ a :: t₁ := hp.symm.subset (List.mem_cons_self _ _)
        have hb : b ∈ t₁ := by
          rcases List.mem_cons.mp hb2 with h | h
          · exact absurd h.symm hab
          · exact h
        have rab : partLe a b := (List.pairwise_cons.mp hs₁).1 b hb
        have rba : partLe b a := (List.pairwise_cons.mp hs₂).1 a ha
        have hkey := partLe_antisymm_key rab rba
        have hmem : (a.1, a.2.1) ∈ t₁.map fun p => (p.1, p.2.1) :=
          List.mem_map.mpr ⟨b, hb, Prod.ext hkey.1.symm hkey.2.symm⟩
        exact hnd2.1 hmem

theorem collectTextParts_eq (listing : List (String × PartRec)) :
    collectTextParts listing =
      ((listing.filter fun fp => fp.2.ptype = "text").map
        fun fp => (fp.2.start, fp.1, fp.2.text)).filter
        fun q => ¬(q.2.2 = "") := by
  induction listing with
  | nil => rfl
  | cons fp rest ih =>
    obtain ⟨fname, p⟩ := fp
    rw [collectTextParts]
    by_cases h1 : p.ptype = "text" <;> by_cases h2 : p.text = "" <;>
      simp [h1, h2, ih]

theorem insertionSort_filter_comm (p : (Int × String × String) → Bool)
    (l : List (Int × String × String))
    (hnd : (l.map fun q => (q.1, q.2.1)).Nodup) :
    List.insertionSort partLe (l.filter p) =
      (List.insertionSort partLe l).filter p := by
  apply eq_of_perm_of_sorted_partLe
  · exact (List.perm_insertionSort partLe _).trans
      ((List.perm_insertionSort partLe l).filter p).symm
  · exact List.sorted_insertionSort partLe _
  · exact (List.sorted_insertionSort partLe l).filter _
  · have h1 : ((l.filter p).map fun q => (q.1, q.2.1)).Nodup :=
      hnd.sublist ((List.filter_sublist l).map _)
    exact ((List.perm_insertionSort partLe (l.filter p)).map
      fun q => (q.1, q.2.1)).nodup_iff.mpr h1

theorem join_map_filter_ne (l : List (Int × String × String)) :
    String.join ((l.filter fun q => ¬(q.2.2 = "")).map fun q => q.2.2) =
      String.join (l.map fun q => q.2.2) := by
  induction l with
  | nil => rfl
  | cons q rest ih =>
    by_cases h : q.2.2 = ""
    · rw [List.map_cons, join_cons, h]
      rw [List.filter_cons_of_neg (by simp [h])]
      rw [ih]
      apply String.ext
      simp
    · rw [List.filter_cons_of_pos (by simp [h]), List.map_cons, join_cons,
        List.map_cons, join_cons, ih]

theorem join_all_empty (l : List (Int × String × String))
    (h : ∀ q ∈ l, q.2.2 = "") :
    String.join (l.map fun q => q.2.2) = "" := by
  induction l with
  | nil => rfl
  | cons q rest ih =>
    rw [List.map_cons, join_cons, h q (List.mem_cons_self _ _)]
    rw [ih fun x hx => h x (List.mem_cons_of_mem _ hx)]
    rfl

theorem selectLatest_skip (l : List MsgRec)
    (hl : ∀ x ∈ l, x.role ≠ "assistant") :
    ∀ (latest : Int) (acc : Option String),
      selectLatest l latest acc = acc := by
  induction l with
  | nil => intro latest acc; rfl
  | cons x rest ih =>
    intro latest acc
    rw [selectLatest]
    rw [if_neg]
    · exact ih (fun y hy => hl y (List.mem_cons_of_mem _ hy)) latest acc
    · intro hcon
      exact hl x (List.mem_cons_self _ _) hcon.1

theorem selectLatest_single (l₁ l₂ : List MsgRec) (m : MsgRec)
    (h1 : ∀ x ∈ l₁, x.role ≠ "assistant")
    (h2 : ∀ x ∈ l₂, x.role ≠ "assistant")
    (hm : m.role = "assistant") (hc : 0 ≤ m.created) :
    selectLatest (l₁ ++ m :: l₂) 0 none = some m.id := by
  induction l₁ with
  | nil =>
    rw [List.nil_append, selectLatest, if_pos ⟨hm, hc⟩]
    exact selectLatest_skip l₂ h2 _ _
  | cons x rest ih =>
    rw [List.cons_append, selectLatest]
    rw [if_neg]
    · exact ih fun y hy => h1 y (List.mem_cons_of_mem _ hy)
    · intro hcon
      exact h1 x (List.mem_cons_self _ _) hcon.1

/-- Counterexample for C6: a storage tree whose single assistant message
has one `"text"` part whose text is the single space `" "`.  The claimed
recovered text is that concatenation, `" "`, but the source returns
nothing for a whitespace-only concatenation
(`combined.trim().is_empty()`). -/
theorem storage_fallback_cex :
    loadLatestAssistantText
        ⟨[⟨"assistant", 1, "msgX"⟩],
          fun _ => [("a.json", ⟨"text", " ", 1⟩)]⟩ = none ∧
    specRecoveredText [("a.json", ⟨"text", " ", 1⟩)] = " " := by
  constructor
  · decide
  · decide

/-- Claim C6 as amended: for a storage tree containing one assistant
message (with non-negative creation time) whose part directory has
pairwise-distinct filenames, the storage fallback recovers exactly the
concatenation of the `text` fields of the `"text"`-typed parts in
lexicographic `(time.start, filename)` order — provided that
concatenation contains a non-whitespace character; a whitespace-only
concatenation yields no recovered text. -/
theorem storage_fallback (st : OCStorage) (l₁ l₂ : List MsgRec)
    (m : MsgRec) (hsplit : st.msgs = l₁ ++ m :: l₂)
    (h1 : ∀ x ∈ l₁, x.role ≠ "assistant")
    (h2 : ∀ x ∈ l₂, x.role ≠ "assistant")
    (hrole : m.role = "assistant") (hc : 0 ≤ m.created)
    (hnd : ((st.parts m.id).map Prod.fst).Nodup)
    (ht : allWhitespace (specRecoveredText (st.parts m.id)) = false) :
    loadLatestAssistantText st = some (specRecoveredText (st.parts m.id)) := by
  have hsel : selectLatest st.msgs 0 none = some m.id := by
    rw [hsplit]
    exact selectLatest_single l₁ l₂ m h1 h2 hrole hc
  unfold loadLatestAssistantText
  rw [hsel]
  dsimp only
  have hndkey :
      (((st.parts m.id).filter fun fp => fp.2.ptype = "text").map
          (fun fp => (fp.2.start, fp.1, fp.2.text)) |>.map
        fun q => (q.1, q.2.1)).Nodup := by
    rw [List.map_map]
    apply List.Nodup.of_map Prod.snd
    rw [List.map_map]
    have : ((st.parts m.id).filter fun fp => fp.2.ptype = "text").map
        (Prod.snd ∘ (fun q => (q.1, q.2.1)) ∘
          fun fp => (fp.2.start, fp.1, fp.2.text)) =
        ((st.parts m.id).filter fun fp => fp.2.ptype = "text").map
          Prod.fst := List.map_congr_left fun fp _ => rfl
    rw [this]
    exact hnd.sublist ((List.filter_sublist _).map _)
  set SP := ((st.parts m.id).filter fun fp => fp.2.ptype = "text").map
    fun fp => (fp.2.start, fp.1, fp.2.text) with hSP
  have hcol : collectTextParts (st.parts m.id) =
      SP.filter fun q => ¬(q.2.2 = "") := collectTextParts_eq _
  have hspec : specRecoveredText (st.parts m.id) =
      String.join ((List.insertionSort partLe SP).map fun q => q.2.2) := rfl
  by_cases hempty : collectTextParts (st.parts m.id) = []
  · exfalso
    have hall : ∀ q ∈ SP, q.2.2 = "" := by
      intro q hq
      by_contra hne
      have : q ∈ SP.filter fun q => ¬(q.2.2 = "") :=
        List.mem_filter.mpr ⟨hq, by simpa using hne⟩
      rw [← hcol, hempty] at this
      simp at this
    have : specRecoveredText (st.parts m.id) = "" := by
      rw [hspec]
      exact join_all_empty _ fun q hq =>
        hall q ((List.perm_insertionSort partLe SP).subset hq)
    rw [this] at ht
    simp [allWhitespace] at ht
  · rw [if_neg hempty]
    have hcomb :
        String.join ((List.insertionSort partLe
            (collectTextParts (st.parts m.id))).map fun q => q.2.2) =
          specRecoveredText (st.parts m.id) := by
      rw [hcol, insertionSort_filter_comm _ SP hndkey, join_map_filter_ne,
        hspec]
    rw [hcomb]
    simp [ht]

/-- Witness for C6's amended claim: a tree with one assistant message and
text parts `(2, "b.json", "world")`, `(1, "a.json", "hello ")` plus a
non-text part recovers `"hello world"`. -/
theorem storage_fallback_witness :
    loadLatestAssistantText
        ⟨[⟨"user", 5, "u"⟩, ⟨"assistant", 1, "msgX"⟩],
          fun _ => [("b.json", ⟨"text", "world", 2⟩),
            ("a.json", ⟨"text", "hello ", 1⟩),
            ("c.json", ⟨"step", "zz", 0⟩)]⟩ = some "hello world" := by
  have h := storage_fallback
    ⟨[⟨"user", 5, "u"⟩, ⟨"assistant", 1, "msgX"⟩],
      fun _ => [("b.json", ⟨"text", "world", 2⟩),
        ("a.json", ⟨"text", "hello ", 1⟩), ("c.json", ⟨"step", "zz", 0⟩)]⟩
    [⟨"user", 5, "u"⟩] [] ⟨"assistant", 1, "msgX"⟩ rfl
    (by decide) (by decide) rfl (by decide) (by decide) (by decide)
  rw [h]
  have : specRecoveredText [("b.json", ⟨"text", "world", 2⟩),
      ("a.json", ⟨"text", "hello ", 1⟩), ("c.json", ⟨"step", "zz", 0⟩)] =
      "hello world" := by decide
  rw [this]

/-- Witness for C5: a concrete OpenCode run that reads one chunk and then
observes the trip returns the `Cancelled` failure with the child killed
and emits only the chunk's Thinking event. -/
theorem adapters_cancelled_witness :
    runOpencodeStdout 1 ⟨"", false⟩ [OCIn.chunk "hi", OCIn.cancelTrip] =
      ([AgentEvent.Thinking "hi" false (some 1)],
        .cancelled
          ((AgentResult.failure "Cancelled" 0).withTerminalReason
            .Cancelled) true true) := by
  have h := (adapters_cancelled 1 initClaudeState ⟨"", false⟩ [] []
    [OCIn.chunk "hi"] [] (by simp) (by decide)).2.1
  have he : ocEventsOf 1 ⟨"", false⟩ [OCIn.chunk "hi"] =
      [AgentEvent.Thinking "hi" false (some 1)] := by decide
  rw [he] at h
  exact h

/-! ### C7 — key sanitisation and uniquification

The `format!("{}_{}", base, i)` suffixes of `unique_key` are decimal
numerals; the lemmas up to `natToString_inj` establish that distinct
indices give distinct suffix strings, which drives both the termination
of the candidate probing loop and the `base_2, base_3, …` pattern. -/

theorem natDigits_eq_toDigitsCore :
    ∀ (fuel n : Nat) (ds : List Char), 0 < fuel → n < 10 ^ fuel →
      Nat.toDigitsCore 10 fuel n ds = natDigits n ++ ds := by
  intro fuel
  induction fuel with
  | zero => intro n ds h0 _; omega
  | succ f ih =>
    intro n ds _ hn
    rw [Nat.toDigitsCore]
    by_cases h10 : n < 10
    · rw [if_pos (by omega : n / 10 = 0)]
      rw [natDigits, if_pos h10, Nat.mod_eq_of_lt h10]
      rfl
    · rw [if_neg (by
        intro hz
        have := Nat.div_eq_of_lt (show n < 10 by omega)
        omega)]
      have hf : 0 < f := by
        rcases Nat.eq_zero_or_pos f with hf | hf
        · subst hf; simp at hn; omega
        · exact hf
      have hdiv : n / 10 < 10 ^ f := by
        rw [Nat.div_lt_iff_lt_mul (by omega)]
        calc n < 10 ^ (f + 1) := hn
        _ = 10 ^ f * 10 := by ring
      rw [ih (n / 10) (Nat.digitChar (n % 10) :: ds) hf hdiv]
      have hrw : natDigits n =
          natDigits (n / 10) ++ [Nat.digitChar (n % 10)] := by
        rw [natDigits]
        exact if_neg h10
      rw [hrw]
      simp

theorem natDigits_eq_toDigits (n : Nat) :
    Nat.toDigits 10 n = natDigits n := by
  rw [Nat.toDigits]
  rw [natDigits_eq_toDigitsCore (n + 1) n [] (by omega)
    (lt_of_lt_of_le (Nat.lt_pow_self (by omega) n)
      (Nat.pow_le_pow_right (by omega) (by omega)))]
  exact List.append_nil _

theorem digitsVal_append_last (l : List Char) (c : Char) :
    digitsVal (l ++ [c]) = digitsVal l * 10 + (c.toNat - 48) := by
  simp [digitsVal, List.foldl_append]

theorem digitChar_val (n : Nat) (h : n < 10) :
    (Nat.digitChar n).toNat - 48 = n := by
  interval_cases n <;> decide

theorem digitsVal_natDigits (n : Nat) : digitsVal (natDigits n) = n := by
  induction n using Nat.strong_induction_on with
  | _ n ih =>
    rw [natDigits]
    split
    · rename_i h10
      simp only [digitsVal, List.foldl_cons, List.foldl_nil, Nat.zero_mul,
        Nat.zero_add]
      exact digitChar_val n h10
    · rename_i h10
      rw [digitsVal_append_last]
      rw [ih (n / 10) (Nat.div_lt_self (by omega) (by omega))]
      rw [digitChar_val _ (Nat.mod_lt _ (by omega))]
      omega

theorem natDigits_inj {m n : Nat} (h : natDigits m = natDigits n) :
    m = n := by
  rw [← digitsVal_natDigits m, ← digitsVal_natDigits n, h]

theorem natToString_inj {m n : Nat} (h : (toString m : String) = toString n) :
    m = n := by
  have hd : Nat.toDigits 10 m = Nat.toDigits 10 n := congrArg String.data h
  rw [natDigits_eq_toDigits, natDigits_eq_toDigits] at hd
  exact natDigits_inj hd

theorem natDigits_ne_nil (n : Nat) : natDigits n ≠ [] := by
  rw [natDigits]
  split
  · simp
  · simp

theorem natToString_length_pos (n : Nat) :
    0 < (toString n : String).length := by
  show 0 < (Nat.toDigits 10 n).length
  rw [natDigits_eq_toDigits]
  exact List.length_pos.mpr (natDigits_ne_nil n)

theorem suffix_ne_base (b : String) (i : Nat) :
    b ++ "_" ++ toString i ≠ b := by
  intro h
  have hlen := congrArg String.length h
  rw [String.length_append, String.length_append] at hlen
  have h1 := natToString_length_pos i
  have h2 : (("_" : String)).length = 1 := rfl
  omega

theorem suffix_inj {b : String} {i j : Nat}
    (h : b ++ "_" ++ toString i = b ++ "_" ++ toString j) : i = j := by
  apply natToString_inj
  have hd := congrArg String.data h
  simp only [String.data_append, List.append_assoc] at hd
  apply String.ext
  exact List.append_cancel_left (List.append_cancel_left hd)

theorem keyChar_step (c : Char) (h128 : c.toNat < 128)
    (h : keyChar c = true) :
    rustLowerChar c = [c.toLower] ∧
      keyChar (dashFix c.toLower) = true ∧
      (dashFix c.toLower).toNat < 128 ∧
      rustLowerChar (dashFix c.toLower) = [dashFix c.toLower] ∧
      dashFix (dashFix c.toLower) = dashFix c.toLower ∧
      ((dashFix c.toLower).isLower || (dashFix c.toLower).isDigit ||
        dashFix c.toLower == '_') = true := by
  have hc : c = Char.ofNat c.toNat := (Char.ofNat_toNat c).symm
  rw [hc] at h ⊢
  revert h
  have key : ∀ m : Fin 128,
      keyChar (Char.ofNat m.val) = true →
        rustLowerChar (Char.ofNat m.val) = [(Char.ofNat m.val).toLower] ∧
          keyChar (dashFix (Char.ofNat m.val).toLower) = true ∧
          (dashFix (Char.ofNat m.val).toLower).toNat < 128 ∧
          rustLowerChar (dashFix (Char.ofNat m.val).toLower) =
            [dashFix (Char.ofNat m.val).toLower] ∧
          dashFix (dashFix (Char.ofNat m.val).toLower) =
            dashFix (Char.ofNat m.val).toLower ∧
          ((dashFix (Char.ofNat m.val).toLower).isLower ||
            (dashFix (Char.ofNat m.val).toLower).isDigit ||
            dashFix (Char.ofNat m.val).toLower == '_') = true := by decide
  exact key ⟨c.toNat, h128⟩

theorem mapIdOn {f : Char → Char} :
    ∀ l : List Char, (∀ x ∈ l, f x = x) → l.map f = l := by
  intro l
  induction l with
  | nil => intro _; rfl
  | cons c rest ih =>
    intro h
    rw [List.map_cons, h c (List.mem_cons_self _ _),
      ih fun x hx => h x (List.mem_cons_of_mem _ hx)]

theorem flatMapIdOn {f : Char → List Char} :
    ∀ l : List Char, (∀ x ∈ l, f x = [x]) → l.flatMap f = l := by
  intro l
  induction l with
  | nil => intro _; rfl
  | cons c rest ih =>
    intro h
    rw [List.flatMap_cons, h c (List.mem_cons_self _ _),
      ih fun x hx => h x (List.mem_cons_of_mem _ hx)]
    rfl

theorem sanitizeKey_chars (s : String)
    (hascii : ∀ c ∈ s.data, c.toNat < 128) :
    ∀ c ∈ (sanitizeKey s).data,
      keyChar c = true ∧ c.toNat < 128 ∧ rustLowerChar c = [c] ∧
        dashFix c = c ∧ (c.isLower || c.isDigit || c == '_') = true := by
  intro c hc
  have hc' : c ∈
      ((s.data.filter keyChar).flatMap rustLowerChar).map dashFix := hc
  obtain ⟨e, he, hce⟩ := List.mem_map.mp hc'
  obtain ⟨c₁, hc₁, hec⟩ := List.mem_flatMap.mp he
  have hk : keyChar c₁ = true := List.of_mem_filter hc₁
  have h128 : c₁.toNat < 128 := hascii c₁ (List.mem_of_mem_filter hc₁)
  have hstep := keyChar_step c₁ h128 hk
  rw [hstep.1, List.mem_singleton] at hec
  subst hec
  subst hce
  exact ⟨hstep.2.1, hstep.2.2.1, hstep.2.2.2.1, hstep.2.2.2.2.1,
    hstep.2.2.2.2.2⟩

theorem sanitizeKey_idem (s : String)
    (hascii : ∀ c ∈ s.data, c.toNat < 128) :
    sanitizeKey (sanitizeKey s) = sanitizeKey s := by
  have hchars := sanitizeKey_chars s hascii
  show (⟨(((sanitizeKey s).data.filter keyChar).flatMap
    rustLowerChar).map dashFix⟩ : String) = sanitizeKey s
  rw [List.filter_eq_self.mpr fun c hc => (hchars c hc).1]
  rw [flatMapIdOn _ fun c hc => (hchars c hc).2.2.1]
  rw [mapIdOn _ fun c hc => (hchars c hc).2.2.2.1]

/-- Counterexample for C7: on Unicode names the sanitizer does NOT keep
only `[a-z0-9_]`, and it is not idempotent.  `sanitize_key("É")` keeps
the non-ASCII letter `é` (Rust's `char::is_alphanumeric` is
Unicode-wide), and `sanitize_key("İ")` yields `i` followed by the
combining dot above U+0307 — whose combining mark the second
application's filter drops, so sanitizing twice gives `"i"` instead. -/
theorem sanitizeKey_unicode_cex :
    sanitizeKey "É" = "é" ∧
    (('é'.isLower || 'é'.isDigit || 'é' == '_') = false) ∧
    sanitizeKey "İ" = "i̇" ∧
    sanitizeKey (sanitizeKey "İ") = "i" ∧
    sanitizeKey (sanitizeKey "İ") ≠ sanitizeKey "İ" := by
  refine ⟨by decide, by decide, by decide, by decide, by decide⟩

theorem uniqueKeyLoop_eq (b : String) (used : List String) :
    ∀ (fuel i j : Nat), i ≤ j → j < i + fuel →
      (∀ k, i ≤ k → k < j → (b ++ "_" ++ toString k) ∈ used) →
      (b ++ "_" ++ toString j) ∉ used →
      uniqueKeyLoop b used fuel i = b ++ "_" ++ toString j := by
  intro fuel
  induction fuel with
  | zero => intro i j hij hlt _ _; omega
  | succ f ih =>
    intro i j hij hlt hall hj
    rw [uniqueKeyLoop]
    by_cases hcase : i = j
    · subst hcase
      have hcont : used.contains (b ++ "_" ++ toString i) = false := by
        simpa using hj
      rw [if_neg (by rw [hcont]; exact Bool.false_ne_true)]
    · have hmem : (b ++ "_" ++ toString i) ∈ used :=
        hall i (le_refl _) (by omega)
      have hcont : used.contains (b ++ "_" ++ toString i) = true := by
        simpa using hmem
      rw [if_pos hcont]
      exact ih (i + 1) j (by omega) (by omega)
        (fun k hk1 hk2 => hall k (by omega) hk2) hj

theorem uniqueKeyLoop_fresh (b : String) (used : List String) :
    uniqueKeyLoop b used (used.length + 1) 2 ∉ used ∧
      ∃ j, 2 ≤ j ∧
        uniqueKeyLoop b used (used.length + 1) 2 =
          b ++ "_" ++ toString j := by
  have hex : ∃ j, 2 ≤ j ∧ j < used.length + 3 ∧
      (b ++ "_" ++ toString j) ∉ used := by
    by_contra hno
    push_neg at hno
    have hsub : ∀ x ∈ (List.range' 2 (used.length + 1)).map
        fun k => b ++ "_" ++ toString k, x ∈ used := by
      intro x hx
      obtain ⟨k, hk, rfl⟩ := List.mem_map.mp hx
      rw [List.mem_range'] at hk
      exact hno k (by omega) (by omega)
    have hndr : (List.range' 2 (used.length + 1)).Nodup := by
      simp [List.nodup_range']
    have hnd : ((List.range' 2 (used.length + 1)).map
        fun k => b ++ "_" ++ toString k).Nodup :=
      (List.nodup_map_iff_inj_on hndr).mpr
        fun x _ y _ hxy => suffix_inj hxy
    have h1 := List.toFinset_card_of_nodup hnd
    have h2 : ((List.range' 2 (used.length + 1)).map
        fun k => b ++ "_" ++ toString k).toFinset ⊆ used.toFinset :=
      fun x hx => List.mem_toFinset.mpr (hsub x (List.mem_toFinset.mp hx))
    have h3 := Finset.card_le_card h2
    have h4 := List.toFinset_card_le used
    rw [h1] at h3
    simp [List.length_range'] at h3
    omega
  have hex' : ∃ j, 2 ≤ j ∧ (b ++ "_" ++ toString j) ∉ used := by
    obtain ⟨j, hj1, _, hj3⟩ := hex
    exact ⟨j, hj1, hj3⟩
  classical
  set j₀ := Nat.find hex' with hj₀
  obtain ⟨hj₀2, hj₀f⟩ := Nat.find_spec hex'
  have hbound : j₀ < 2 + (used.length + 1) := by
    obtain ⟨j, hj1, hj2, hj3⟩ := hex
    have := Nat.find_min' hex' ⟨hj1, hj3⟩
    omega
  have hloop : uniqueKeyLoop b used (used.length + 1) 2 =
      b ++ "_" ++ toString j₀ := by
    apply uniqueKeyLoop_eq b used (used.length + 1) 2 j₀ hj₀2 hbound
    · intro k hk1 hk2
      by_contra hkn
      exact absurd ⟨hk1, hkn⟩ (Nat.find_min hex' hk2)
    · exact hj₀f
  rw [hloop]
  exact ⟨hj₀f, j₀, hj₀2, rfl⟩

theorem uniqueKey_fresh (b : String) (used : List String) :
    (uniqueKey b used).1 ∉ used ∧
      (uniqueKey b used).2 = (uniqueKey b used).1 :: used := by
  by_cases hb : b ∈ used
  · have hcont : used.contains b = true := by simpa using hb
    have h1 : uniqueKey b used =
        (uniqueKeyLoop b used (used.length + 1) 2,
          uniqueKeyLoop b used (used.length + 1) 2 :: used) := by
      unfold uniqueKey
      rw [if_pos hcont]
    rw [h1]
    exact ⟨(uniqueKeyLoop_fresh b used).1, rfl⟩
  · have hcont : used.contains b = false := by simpa using hb
    have h1 : uniqueKey b used = (b, b :: used) := by
      unfold uniqueKey
      rw [if_neg (by rw [hcont]; exact Bool.false_ne_true)]
    rw [h1]
    exact ⟨hb, rfl⟩

theorem assignKeysFrom_nodup :
    ∀ (names used : List String),
      (∀ k ∈ assignKeysFrom names used, k ∉ used) ∧
        (assignKeysFrom names used).Nodup := by
  intro names
  induction names with
  | nil => intro used; simp [assignKeysFrom]
  | cons n rest ih =>
    intro used
    rw [assignKeysFrom]
    obtain ⟨hfresh, hused⟩ := uniqueKey_fresh (sanitizeKey n) used
    obtain ⟨htail, hnd⟩ := ih (uniqueKey (sanitizeKey n) used).2
    constructor
    · intro k hk
      rcases List.mem_cons.mp hk with hk | hk
      · rw [hk]; exact hfresh
      · have := htail k hk
        rw [hused] at this
        intro hku
        exact this (List.mem_cons_of_mem _ hku)
    · rw [List.nodup_cons]
      refine ⟨?_, hnd⟩
      intro hmem
      have := htail _ hmem
      rw [hused] at this
      exact this (List.mem_cons_self _ _)

theorem usedAfter_mem (b : String) (j : Nat) (x : String) :
    x ∈ usedAfter b j ↔
      x = b ∨ ∃ i, 2 ≤ i ∧ i < j + 1 ∧ x = b ++ "_" ++ toString i := by
  simp only [usedAfter, List.mem_append, List.mem_reverse, List.mem_map,
    List.mem_range'_1, List.mem_singleton]
  constructor
  · rintro (⟨i, ⟨hi1, hi2⟩, rfl⟩ | h)
    · exact Or.inr ⟨i, hi1, by omega, rfl⟩
    · exact Or.inl h
  · rintro (h | ⟨i, hi1, hi2, rfl⟩)
    · exact Or.inr h
    · exact Or.inl ⟨i, ⟨hi1, by omega⟩, rfl⟩

theorem usedAfter_length (b : String) (j : Nat) (hj : 1 ≤ j) :
    (usedAfter b j).length = j := by
  simp [usedAfter, List.length_range']
  omega

theorem usedAfter_succ (b : String) (j : Nat) (hj : 1 ≤ j) :
    usedAfter b (j + 1) = (b ++ "_" ++ toString (j + 1)) :: usedAfter b j := by
  simp only [usedAfter]
  have h1 : j + 1 - 1 = (j - 1) + 1 := by omega
  rw [h1, List.range'_1_concat]
  rw [List.map_append, List.reverse_append]
  have h2 : 2 + (j - 1) = j + 1 := by omega
  simp [h2]

theorem usedAfter_one (b : String) : usedAfter b 1 = [b] := rfl

theorem assignKeysFrom_same_base (b : String) :
    ∀ (names : List String) (j : Nat), 1 ≤ j →
      (∀ n ∈ names, sanitizeKey n = b) →
      assignKeysFrom names (usedAfter b j) =
        (List.range' (j + 1) names.length).map
          fun i => b ++ "_" ++ toString i := by
  intro names
  induction names with
  | nil => intro j _ _; simp [assignKeysFrom]
  | cons n rest ih =>
    intro j hj hb
    rw [assignKeysFrom]
    have hsan : sanitizeKey n = b := hb n (List.mem_cons_self _ _)
    rw [hsan]
    have hbmem : b ∈ usedAfter b j := (usedAfter_mem b j b).mpr (Or.inl rfl)
    have hcont : (usedAfter b j).contains b = true := by simpa using hbmem
    have hloop : uniqueKeyLoop b (usedAfter b j)
        ((usedAfter b j).length + 1) 2 = b ++ "_" ++ toString (j + 1) := by
      apply uniqueKeyLoop_eq
      · omega
      · rw [usedAfter_length b j hj]; omega
      · intro k hk1 hk2
        exact (usedAfter_mem b j _).mpr (Or.inr ⟨k, hk1, by omega, rfl⟩)
      · intro hmem
        rcases (usedAfter_mem b j _).mp hmem with h | ⟨i, hi1, hi2, hie⟩
        · exact suffix_ne_base b (j + 1) h
        · have := suffix_inj hie
          omega
    have hkey : uniqueKey b (usedAfter b j) =
        (b ++ "_" ++ toString (j + 1),
          (b ++ "_" ++ toString (j + 1)) :: usedAfter b j) := by
      unfold uniqueKey
      simp only [hcont, if_true]
      rw [hloop]
    rw [hkey]
    have hrest := ih (j + 1) (by omega)
      fun x hx => hb x (List.mem_cons_of_mem _ hx)
    dsimp only
    rw [← usedAfter_succ b j hj]
    rw [hrest]
    rfl

theorem assignKeys_same_base (names : List String) (b : String)
    (hne : names ≠ []) (hb : ∀ n ∈ names, sanitizeKey n = b) :
    assignKeys names =
      b :: (List.range' 2 (names.length - 1)).map
        fun i => b ++ "_" ++ toString i := by
  cases names with
  | nil => exact absurd rfl hne
  | cons n rest =>
    unfold assignKeys
    rw [assignKeysFrom]
    have hsan : sanitizeKey n = b := hb n (List.mem_cons_self _ _)
    rw [hsan]
    have hkey : uniqueKey b [] = (b, [b]) := by
      unfold uniqueKey
      simp
    rw [hkey]
    have := assignKeysFrom_same_base b rest 1 (le_refl 1)
      fun x hx => hb x (List.mem_cons_of_mem _ hx)
    rw [usedAfter_one] at this
    rw [this]
    simp

/-- Claim C7 as amended: restricted to ASCII names — where the embedding
of Rust's Unicode-wide character functions is exact — the workspace key
sanitizer lowercases, keeps only characters in `[a-z0-9_]` (replacing
`-` with `_`), and is idempotent; on non-ASCII names the program keeps
characters outside `[a-z0-9_]` and is not idempotent (see the
counterexample).  Independently of any character-class facts, the
uniquifier assigns pairwise-distinct keys to every list of names, and a
multiset of names whose sanitized bases all collide on `base` receives
exactly the keys `base, base_2, base_3, …`. -/
theorem sanitizer_uniquifier :
    (∀ s : String, (∀ c ∈ s.data, c.toNat < 128) →
      sanitizeKey (sanitizeKey s) = sanitizeKey s ∧
      ∀ c ∈ (sanitizeKey s).data,
        (c.isLower || c.isDigit || c == '_') = true) ∧
    (∀ names, (assignKeys names).Nodup) ∧
    (∀ (names : List String) (b : String), names ≠ [] →
      (∀ n ∈ names, sanitizeKey n = b) →
      assignKeys names =
        b :: (List.range' 2 (names.length - 1)).map
          fun i => b ++ "_" ++ toString i) :=
  ⟨fun s hascii =>
    ⟨sanitizeKey_idem s hascii,
      fun c hc => (sanitizeKey_chars s hascii c hc).2.2.2.2⟩,
    fun names => (assignKeysFrom_nodup names []).2,
    assignKeys_same_base⟩

/-- Witness for C7's amended claim at concrete inputs: the ASCII name
`"My-Tool"` sanitises idempotently to `"my_tool"`, and three MCP servers
named `"tool"` receive the distinct keys `tool, tool_2, tool_3`. -/
theorem sanitizer_uniquifier_witness :
    sanitizeKey (sanitizeKey "My-Tool") = sanitizeKey "My-Tool" ∧
    (assignKeys ["tool", "tool", "tool"]).Nodup ∧
    assignKeys ["tool", "tool", "tool"] = ["tool", "tool_2", "tool_3"] := by
  refine ⟨(sanitizer_uniquifier.1 "My-Tool" (by decide)).1,
    sanitizer_uniquifier.2.1 ["tool", "tool", "tool"], ?_⟩
  have h := sanitizer_uniquifier.2.2 ["tool", "tool", "tool"] "tool"
    (by decide) (by decide)
  rw [h]
  rfl

end OpenAgent
